import Mathlib

/-!
Verification of the txledger core (a minimal proof-of-work ledger written
in Go) against its natural-language specification.

The Go sources are shallowly embedded: byte slices become `List Nat`
(each element a byte value), unsigned 64-bit integers become `Nat` with
an explicit `% 2 ^ 64` wherever Go arithmetic can wrap, and the in-place
mutation of the btree address book becomes explicit value passing over an
association list keyed by address bytes.  The external cryptographic
primitives (SHA-256 from crypto/sha256 and the ECDSA verify predicate
from crypto/ecdsa) are not part of this repository; they are abstracted
into an environment `Env` over which all theorems quantify.
-/

set_option maxRecDepth 8192

namespace TxLedger

/-- Modulus of Go's unsigned 64-bit integers. -/
def U64 : Nat := 2 ^ 64

/-- Little-endian base-256 encoding of `n` into exactly `k` bytes, as
written by Go's `binary.Write(w, binary.LittleEndian, v)`. -/
def encodeLE : Nat → Nat → List Nat
  | 0, _ => []
  | k + 1, n => n % 256 :: encodeLE k (n / 256)

/-- Little-endian base-256 decoding, as performed by Go's
`binary.Read(r, binary.LittleEndian, &v)` on a full buffer. -/
def decodeLE : List Nat → Nat
  | [] => 0
  | b :: r => b + 256 * decodeLE r

/-- Eight-byte little-endian encoding of a u64 field. -/
def u64LE (n : Nat) : List Nat := encodeLE 8 n

/-- Big-endian interpretation of a byte slice, as in Go's
`new(big.Int).SetBytes(b)`. -/
def beNat (l : List Nat) : Nat := l.foldl (fun a b => a * 256 + b) 0

/-- Fuel-indexed helper for `minBE`; structural recursion on the fuel
keeps the definition kernel-evaluable.  A fuel of `n` always suffices
for the number `n`, since a positive number has at most as many base-256
digits as its own value. -/
def minBEAux : Nat → Nat → List Nat
  | 0, _ => []
  | fuel + 1, n => if n = 0 then [] else minBEAux fuel (n / 256) ++ [n % 256]

/-- Minimal big-endian byte encoding of a natural number, as produced by
Go's `big.Int.Bytes()`: the empty slice for zero, and no leading zero
bytes otherwise. -/
def minBE (n : Nat) : List Nat := minBEAux n n

/-- Environment of external cryptographic primitives used by the core but
implemented outside this repository: `sha` models `crypto/sha256` (one
application of SHA-256 over the accumulated input) and `ecdsaVerify`
models `crypto/ecdsa.Verify` on P-256, taking the public key coordinates
X and Y, the hashed message, and the signature components r and s. -/
structure Env where
  sha : List Nat → List Nat
  ecdsaVerify : Nat → Nat → List Nat → Nat → Nat → Bool

/-- Double SHA-256, the digest of ledger/hash: `Hasher.Sum` feeds the
inner SHA-256 of the accumulated writes through a second SHA-256. -/
def dsha (E : Env) (b : List Nat) : List Nat := E.sha (E.sha b)

/-! ## Accounts (ledger/account/account.go)

A Go `ecdsa.PublicKey` holds two big integers X and Y; the curve itself
plays no role in the serialization layer modelled here. -/

/-- Public key as stored in `account.Public`: the X and Y coordinates. -/
structure Pub where
  X : Nat
  Y : Nat
deriving DecidableEq, Repr

/-- Embedding of `account.NewPublic`: split a 64-byte slice into the
big-endian X (first 32 bytes) and Y (rest).  Go panics when the slice
is shorter than 32 bytes (`key[:32]` is out of range) whereas
`List.take`/`List.drop` are total; every theorem whose conclusion
depends on this call returning (coinbase application with an absent
recipient entry) therefore carries an explicit hypothesis keeping the
data at least 32 bytes long. -/
def newPublic (key : List Nat) : Pub :=
  { X := beNat (key.take 32), Y := beNat (key.drop 32) }

/-- Embedding of `Public.PublicKeyBytes`: the concatenation of the
minimal big-endian encodings of X and Y (`big.Int.Bytes()` drops leading
zero bytes, so the result is not always 64 bytes long). -/
def pubKeyBytes (p : Pub) : List Nat := minBE p.X ++ minBE p.Y

/-- Embedding of `Public.Address`: double SHA-256 of the public key
bytes. -/
def pubAddress (E : Env) (p : Pub) : List Nat := dsha E (pubKeyBytes p)

/-- Embedding of `Public.Verify` and `Private.Verify` with the Go panic
made explicit: the source slices `signature[:32]` and `signature[32:]`,
which panics (models to `none`) when the signature is shorter than 32
bytes; otherwise it parses r and s big-endian and calls `ecdsa.Verify`. -/
def pubVerifyChecked (E : Env) (p : Pub) (h sig : List Nat) : Option Bool :=
  if sig.length < 32 then none
  else some (E.ecdsaVerify p.X p.Y h (beNat (sig.take 32)) (beNat (sig.drop 32)))

/-- Total variant of `Public.Verify` used inside transaction proof
verification, where the Go slicing panic is out of scope (a panicking
run produces no successor ledger state). -/
def pubVerify (E : Env) (p : Pub) (h sig : List Nat) : Bool :=
  E.ecdsaVerify p.X p.Y h (beNat (sig.take 32)) (beNat (sig.drop 32))

/-- Serialization layer of `Private.Sign`: given the ECDSA integers r
and s, the source returns `r.Bytes()` followed by `s.Bytes()` — minimal
big-endian encodings with no left padding. -/
def signEncode (r s : Nat) : List Nat := minBE r ++ minBE s

/-! ## Address book (account.AddressTreeItem over google/btree)

The btree keyed by `bytes.Compare` on addresses is modelled as an
association list: `Get` finds the entry whose address bytes are equal,
`ReplaceOrInsert` replaces that entry in place or appends a new one.
Only value semantics are observable through the claims, so the list
order stands in for the tree shape. -/

/-- Entry of the address book: `account.AddressTreeItem`. -/
structure AddrItem where
  address : List Nat
  account : Pub
  funds : Nat
deriving DecidableEq, Repr

/-- Address book state. -/
def AddrBook : Type := List AddrItem

instance : DecidableEq AddrBook := inferInstanceAs (DecidableEq (List AddrItem))

/-- Embedding of `btree.Get` keyed by address bytes. -/
def bGet (book : AddrBook) (addr : List Nat) : Option AddrItem :=
  List.find? (fun e => e.address = addr) book

/-- Embedding of `btree.ReplaceOrInsert` keyed by address bytes. -/
def bPut : AddrBook → AddrItem → AddrBook
  | [], it => [it]
  | e :: r, it => if e.address = it.address then it :: r else e :: bPut r it

/-! ## Transactions (ledger/transaction/transaction.go) -/

/-- Fee constants, written with the shifts used in the source
(`BaseFee = 2 << 8`, `FeeSizeScalar = 2 << 4`,
`FeeComplexityScalar = 2 << 6`, `FeeEpoch = 64.0`). -/
def BaseFee : Nat := 2 <<< 8

/-- Scales the fee with transaction size; source value `2 << 4`. -/
def FeeSizeScalar : Nat := 2 <<< 4

/-- Scales the fee with block complexity; source value `2 << 6`. -/
def FeeComplexityScalar : Nat := 2 <<< 6

/-- Epoch divisor of the fee schedule; source value `64.0`. -/
def FeeEpoch : Nat := 64

/-- Fuel-indexed bit length; structural recursion on the fuel keeps it
kernel-evaluable. -/
def bitLenAux : Nat → Nat → Nat
  | 0, _ => 0
  | f + 1, n => if n = 0 then 0 else bitLenAux f (n / 2) + 1

/-- Bit length of a u64 value (64 units of fuel cover the whole
domain `n < 2 ^ 64`; every argument below comes from a Go `uint64`). -/
def bitLen (n : Nat) : Nat := bitLenAux 64 n

/-- Go's `float64(c)` conversion of a `uint64`, as an exact integer:
values below 2^53 are exact; larger values are rounded to 53
significant bits, to nearest with ties to even.  (The result of
rounding an integer in [2^53, 2^64) is again an integer, a multiple of
`2 ^ (bitLen c - 53)`.) -/
def fround (c : Nat) : Nat :=
  if c < 2 ^ 53 then c
  else
    let t := bitLen c - 53
    let q := c / 2 ^ t
    let r := c % 2 ^ t
    if 2 * r > 2 ^ t then (q + 1) * 2 ^ t
    else if 2 * r < 2 ^ t then q * 2 ^ t
    else (if q % 2 = 0 then q else q + 1) * 2 ^ t

/-- Decision core of the float fee quality: the value of
`uint64(math.Sqrt(x))` for `x = N / 64`, given `k = ⌊sqrt (N / 64)⌋`.
Division by 64.0 only shifts the exponent, so `x` is the exact rational
`N / 64`.  `math.Sqrt` is correctly rounded, and rounding to nearest is
monotone, so the double it returns lies in `[k, k + 1]`; truncation to
`uint64` therefore yields `k` unless rounding lands exactly on `k + 1`,
which happens iff `sqrt x` is at least the midpoint between `k + 1` and
its predecessor double.  With `t` such that `2 ^ t ≤ k + 1 < 2 ^ (t+1)`,
that half-gap is `2 ^ (t - 54)` when `k + 1 = 2 ^ t` (the predecessor
lies in the lower binade) and `2 ^ (t - 53)` otherwise; at the exact
midpoint, round-half-to-even picks `k + 1`, whose mantissa
`(k+1) * 2 ^ (52 - t)` is even, so the comparison is non-strict.
Squaring `sqrt x ≥ (k + 1) - 2 ^ (-e)` and clearing denominators gives
the integer test below. -/
def feeQualityCore (N k : Nat) : Nat :=
  let t := bitLen (k + 1) - 1
  let e := if k + 1 = 2 ^ t then 54 - t else 53 - t
  if FeeEpoch * ((k + 1) * 2 ^ e - 1) ^ 2 ≤ N * 2 ^ (2 * e) then k + 1 else k

/-- Embedding of the source's `uint64(math.Sqrt(float64(complexity) /
FeeEpoch))`: round the complexity to a double, then take the correctly
rounded square root of the exact rational `fround c / 64` and truncate
(using `⌊sqrt (N / 64)⌋ = Nat.sqrt (N / 64)` with integer division). -/
def feeQuality (c : Nat) : Nat :=
  feeQualityCore (fround c) (Nat.sqrt (fround c / FeeEpoch))

/-- Embedding of `transaction.CalculateFee`, including the
double-precision rounding of the complexity term. -/
def CalculateFee (size complexity : Nat) : Nat :=
  (BaseFee + FeeSizeScalar * size + FeeComplexityScalar * feeQuality complexity) % U64

/-- Transaction kinds: `TypeCoinbase = 0`, `TypeAccount = 1`,
`TypeTransfer = 2`. -/
def TypeCoinbase : Nat := 0

/-- Account announcement kind. -/
def TypeAccount : Nat := 1

/-- Transfer kind. -/
def TypeTransfer : Nat := 2

/-- Embedding of `transaction.TX`. -/
structure TX where
  chain : Nat
  ty : Nat
  sender : List Nat
  recipient : List Nat
  amount : Nat
  fee : Nat
  timestamp : Nat
  proof : List Nat
  data : List Nat
deriving DecidableEq, Repr

/-- Embedding of `transaction.New`: the zero transaction with 32-byte
zero sender and recipient and 64-byte zero proof. -/
def txNew : TX :=
  { chain := 0, ty := 0, sender := List.replicate 32 0,
    recipient := List.replicate 32 0, amount := 0, fee := 0,
    timestamp := 0, proof := List.replicate 64 0, data := [] }

/-- Embedding of `TX.PartialHash`: double SHA-256 over the five u64
fields (little-endian) followed by sender, recipient and data; the proof
is deliberately excluded. -/
def txPartialHash (E : Env) (t : TX) : List Nat :=
  dsha E (u64LE t.chain ++ u64LE t.ty ++ u64LE t.amount ++ u64LE t.fee ++
    u64LE t.timestamp ++ t.sender ++ t.recipient ++ t.data)

/-- Embedding of `TX.Hash`: double SHA-256 of the partial hash followed
by the proof. -/
def txHash (E : Env) (t : TX) : List Nat :=
  dsha E (txPartialHash E t ++ t.proof)

/-- Embedding of `TX.VerifyFees`. -/
def txVerifyFees (t : TX) (reward complexity : Nat) : Bool :=
  if t.ty = TypeCoinbase then t.amount ≤ reward
  else if t.ty = TypeAccount then true
  else if t.ty = TypeTransfer then CalculateFee t.data.length complexity ≤ t.fee
  else false

/-- Embedding of `TX.VerifyProof`.  In the transfer branch the source
asserts `item.(account.Account)` on a stored `AddressTreeItem`, which
does not implement the `Account` interface and would panic at runtime;
the embedding uses the stored entry's account (the evident intent), and
no claim settled here relies on the transfer branch succeeding. -/
def txVerifyProof (E : Env) (t : TX) (book : AddrBook) : Bool :=
  if t.ty = TypeCoinbase then
    let p := newPublic t.data
    pubAddress E p = t.recipient && pubVerify E p (txPartialHash E t) t.proof
  else if t.ty = TypeAccount then
    let p := newPublic t.data
    pubAddress E p = t.sender && pubVerify E p (txPartialHash E t) t.proof
  else if t.ty = TypeTransfer then
    match bGet book t.sender with
    | none => false
    | some it =>
        pubAddress E it.account = t.sender &&
          pubVerify E it.account (txPartialHash E t) t.proof
  else false

/-- Embedding of `TX.Apply`.  `none` models a `false` return (every
`false` path in the source returns before any `ReplaceOrInsert`, so
failure leaves the tree untouched); `some book` models a `true` return
with the mutated tree.  The transfer branch reproduces the source
verbatim, including the variable shadowing at transaction.go:177 where
`recipientAddrItem` is assigned from `item` (the sender's entry) instead
of `recipientItem`; both `ReplaceOrInsert` calls therefore target the
sender's address.  In the unknown-kind branch the source falls through
the switch and inserts the zero-valued `AddressTreeItem` (nil address,
nil account — modelled by the zero public key — and zero funds). -/
def txApply (E : Env) (t : TX) (book : AddrBook) : Option AddrBook :=
  if t.ty = TypeCoinbase then
    match bGet book t.recipient with
    | some it => some (bPut book { it with funds := (it.funds + t.amount) % U64 })
    | none =>
        let p := newPublic t.data
        some (bPut book { address := pubAddress E p, account := p,
                          funds := (0 + t.amount) % U64 })
  else if t.ty = TypeAccount then
    let it := match bGet book t.sender with
      | some it => it
      | none =>
          let p := newPublic t.data
          { address := pubAddress E p, account := p, funds := 0 }
    if t.sender ≠ pubAddress E it.account then none
    else if t.data ≠ pubKeyBytes it.account then none
    else some (bPut book it)
  else if t.ty = TypeTransfer then
    match bGet book t.sender with
    | none => none
    | some sIt =>
        match bGet book t.recipient with
        | none => none
        | some _ =>
            let rIt := sIt
            if (t.fee + t.amount) % U64 < t.amount then none
            else if sIt.funds < (t.fee + t.amount) % U64 then none
            else
              let sIt2 := { sIt with funds := sIt.funds - (t.fee + t.amount) % U64 }
              if (rIt.funds + t.amount) % U64 < rIt.funds then none
              else
                let rIt2 := { rIt with funds := (rIt.funds + t.amount) % U64 }
                some (bPut (bPut book rIt2) sIt2)
  else some (bPut book { address := [], account := { X := 0, Y := 0 }, funds := 0 })

/-! ## Binary serialization (TX.Bytes / TX.SetBytes)

Reads are modelled on an explicit remaining-bytes list.  Go's
`binary.Read` uses `io.ReadFull`: on a short source it consumes
everything available, reports an error (which every call site of the
decoders ignores) and leaves the destination untouched.  Go's
`bytes.Buffer.Read(dst)` copies `min(len(dst), available)` bytes into
the front of `dst`, leaving the tail of `dst` as it was. -/

/-- Read one little-endian u64: `none` (destination untouched) and an
exhausted stream when fewer than 8 bytes remain. -/
def readU64 (s : List Nat) : Option Nat × List Nat :=
  if 8 ≤ s.length then (some (decodeLE (s.take 8)), s.drop 8) else (none, [])

/-- Read into a fixed destination buffer: copies
`min (dst.length) (s.length)` bytes over the front of `dst`. -/
def readInto (dst s : List Nat) : List Nat × List Nat :=
  let k := min dst.length s.length
  (s.take k ++ dst.drop k, s.drop k)

/-- Embedding of `TX.Bytes`: the five u64 fields little-endian, then
sender, recipient, proof and data raw. -/
def txBytes (t : TX) : List Nat :=
  u64LE t.chain ++ u64LE t.ty ++ u64LE t.amount ++ u64LE t.fee ++
    u64LE t.timestamp ++ t.sender ++ t.recipient ++ t.proof ++ t.data

/-- Embedding of `TX.SetBytes` on receiver `t`: every read error is
ignored, so missing fields silently keep the receiver's values, and
`data` becomes whatever remains unread in the buffer. -/
def txSetBytes (t : TX) (b : List Nat) : TX :=
  let r1 := readU64 b
  let r2 := readU64 r1.2
  let r3 := readU64 r2.2
  let r4 := readU64 r3.2
  let r5 := readU64 r4.2
  let rs := readInto t.sender r5.2
  let rr := readInto t.recipient rs.2
  let rp := readInto t.proof rr.2
  { t with
    chain := r1.1.getD t.chain
    ty := r2.1.getD t.ty
    amount := r3.1.getD t.amount
    fee := r4.1.getD t.fee
    timestamp := r5.1.getD t.timestamp
    sender := rs.1
    recipient := rr.1
    proof := rp.1
    data := rp.2 }

/-! ## Blocks (ledger/block/block.go) -/

/-- Epoch divisor of the proof-of-work difficulty; source value `16.0`. -/
def BlockEpoch : Nat := 16

/-- Reward scale per required quality bit; source value `2 << 4`. -/
def RewardBase : Nat := 2 <<< 4

/-- Hash output size in bytes. -/
def HashSize : Nat := 32

/-- Chunk width of the parallel variance search; source value `2 << 16`. -/
def VarianceChunkSize : Nat := 2 <<< 16

/-- Embedding of `block.Block`. -/
structure Block where
  chain : Nat
  index : Nat
  complexity : Nat
  timestamp : Nat
  variance : Nat
  previousHash : List Nat
  data : List TX
deriving DecidableEq, Repr

/-- Embedding of `block.New`: the zero block with a 32-byte zero
previous hash and no transactions. -/
def blockNew : Block :=
  { chain := 0, index := 0, complexity := 0, timestamp := 0, variance := 0,
    previousHash := List.replicate 32 0, data := [] }

/-- Embedding of `block.HashQuality`: the required number of leading
zero bits, `uint64(math.Sqrt(float64(complexity)/BlockEpoch))` in the
source.  As with `CalculateFee`, `⌊sqrt (c / 16)⌋ = ⌊sqrt ⌊c / 16⌋⌋`
lets the float expression be embedded as `Nat.sqrt (c / BlockEpoch)`. -/
def HashQuality (complexity : Nat) : Nat := Nat.sqrt (complexity / BlockEpoch)

/-- Embedding of `Block.Bytes`: five header u64 fields, the transaction
count, the previous hash, then each transaction as size-prefixed raw
bytes. -/
def blockBytes (b : Block) : List Nat :=
  u64LE b.chain ++ u64LE b.index ++ u64LE b.complexity ++ u64LE b.timestamp ++
    u64LE b.variance ++ u64LE b.data.length ++ b.previousHash ++
    (b.data.map (fun t => u64LE (txBytes t).length ++ txBytes t)).flatten

/-- Transaction-list parsing loop of `Block.SetBytesFrom`.  The source
declares `var txSize uint64` once outside the loop, so a failed size
read silently keeps the size of the previous iteration (`prevSize`,
initially zero); `make([]byte, txSize)` zero-fills whatever the stream
cannot provide. -/
def readTxs : Nat → Nat → List Nat → List TX × List Nat
  | 0, _, s => ([], s)
  | n + 1, prevSize, s =>
      let r := readU64 s
      let sz := r.1.getD prevSize
      let k := min sz r.2.length
      let txb := r.2.take k ++ List.replicate (sz - k) 0
      let rest := readTxs n sz (r.2.drop k)
      (txSetBytes txNew txb :: rest.1, rest.2)

/-- Embedding of `Block.SetBytesFrom` on receiver `b`, returning the
parsed block and the unconsumed stream.  Read errors are ignored exactly
as in the source: missing header fields keep the receiver's values, a
missing count parses zero transactions, and a short previous-hash read
keeps the tail of the receiver's buffer. -/
def blockSetBytesFrom (b : Block) (s : List Nat) : Block × List Nat :=
  let r1 := readU64 s
  let r2 := readU64 r1.2
  let r3 := readU64 r2.2
  let r4 := readU64 r3.2
  let r5 := readU64 r4.2
  let r6 := readU64 r5.2
  let rp := readInto b.previousHash r6.2
  let rt := readTxs (r6.1.getD 0) 0 rp.2
  ({ b with
     chain := r1.1.getD b.chain
     index := r2.1.getD b.index
     complexity := r3.1.getD b.complexity
     timestamp := r4.1.getD b.timestamp
     variance := r5.1.getD b.variance
     previousHash := rp.1
     data := rt.1 },
   rt.2)

/-- Embedding of `Block.SetBytes`.  The source calls
`b.SetBytesFrom(buffer)` on a value receiver and discards the returned
block, so the caller's block keeps all its scalar fields and its
transaction list; only `PreviousHash` changes, because the receiver's
slice aliases the one `SetBytesFrom` reads into. -/
def blockSetBytes (b : Block) (d : List Nat) : Block :=
  { b with previousHash := (blockSetBytesFrom b d).1.previousHash }

/-- Embedding of `Block.Hash`: double SHA-256 over the five header u64
fields (no transaction count), the previous hash, and each
transaction's full hash. -/
def blockHash (E : Env) (b : Block) : List Nat :=
  dsha E (u64LE b.chain ++ u64LE b.index ++ u64LE b.complexity ++
    u64LE b.timestamp ++ u64LE b.variance ++ b.previousHash ++
    (b.data.map (txHash E)).flatten)

/-- Length of the binary representation of a byte value, as computed by
Go's `bits.Len8`; written as a comparison chain so the kernel can
evaluate it. -/
def len8 (n : Nat) : Nat :=
  if 128 ≤ n then 8 else if 64 ≤ n then 7 else if 32 ≤ n then 6
  else if 16 ≤ n then 5 else if 8 ≤ n then 4 else if 4 ≤ n then 3
  else if 2 ≤ n then 2 else if 1 ≤ n then 1 else 0

/-- Leading zero bits of a byte, Go's `bits.LeadingZeros8`. -/
def lz8 (n : Nat) : Nat := 8 - len8 n

/-- Byte-consuming loop of `Block.Compliant`: succeed when the
remaining requirement fits inside the current byte's leading zeros,
fail on the first byte that is not all zeros otherwise, and subtract a
full byte of zeros before continuing. -/
def compliantLoop : Nat → List Nat → Bool
  | _, [] => false
  | req, h :: t =>
      if req ≤ lz8 h then true
      else if lz8 h < 8 then false
      else compliantLoop (req - lz8 h) t

/-- Embedding of `Block.Compliant`. -/
def blockCompliant (E : Env) (b : Block) : Bool :=
  compliantLoop (HashQuality b.complexity) (blockHash E b)

/-- Number of leading zero bits of a byte string (the quantity the
compliance predicate is specified against). -/
def lzBits : List Nat → Nat
  | [] => 0
  | h :: t => if h = 0 then 8 + lzBits t else lz8 h

/-- Embedding of `block.BlockReward`: the wrapping sum of the transfer
fees plus `HashQuality(complexity) * RewardBase`, all in u64
arithmetic. -/
def blockReward (complexity : Nat) (txs : List TX) : Nat :=
  ((txs.filter (fun t => t.ty = TypeTransfer)).foldl
      (fun a t => (a + t.fee) % U64) 0
    + HashQuality complexity * RewardBase % U64) % U64

/-- Transaction loop of `Block.Verify` at index `i`, threading the
cloned snapshot `tree`; every failure returns the caller's `fallback`
book together with the tagged error. -/
def verifyTxs (E : Env) (fallback : AddrBook) (reward complexity : Nat) :
    Nat → List TX → AddrBook → AddrBook × Option String
  | _, [], tree => (tree, none)
  | i, t :: r, tree =>
      if (t.ty = TypeCoinbase ∧ i ≠ 0) ∨ (t.ty ≠ TypeCoinbase ∧ i = 0) then
        (fallback, some "TX does not begin with coinbase")
      else if ¬ txVerifyFees t reward complexity then
        (fallback, some "TX does not use valid fees")
      else if ¬ txVerifyProof E t tree then
        (fallback, some "TX does not have a valid proof")
      else
        match txApply E t tree with
        | none => (fallback, some "TX can not be applied")
        | some tree2 => verifyTxs E fallback reward complexity (i + 1) r tree2

/-- Embedding of `Block.Verify` against the snapshot `fallback`:
compliance, non-emptiness, then the transaction loop over a clone (in
this value semantics, the same book threaded apart from `fallback`). -/
def blockVerify (E : Env) (b : Block) (fallback : AddrBook) :
    AddrBook × Option String :=
  if ¬ blockCompliant E b then (fallback, some "Block is not compliant")
  else if b.data.length < 1 then (fallback, some "Block is empty")
  else verifyTxs E fallback (blockReward b.complexity b.data) b.complexity 0
    b.data fallback

/-- Embedding of `Block.SuccessorOf`; `none` means no error.  The index
and complexity of the predecessor are incremented in u64 arithmetic. -/
def successorOf (E : Env) (b prev : Block) : Option String :=
  if b.chain ≠ prev.chain then some "Chain ID should match"
  else if b.index ≠ (prev.index + 1) % U64 then some "Index should be larger"
  else if b.complexity ≠ (prev.complexity + 1) % U64 then some "Complexity should be larger"
  else if b.timestamp < prev.timestamp then some "Timestamp should be newer"
  else if b.previousHash ≠ blockHash E prev then some "Prev hash should be equal"
  else none

/-! ## Ledger (ledger/ledger.go) -/

/-- Embedding of `ledger.Ledger`. -/
structure Ledger where
  chain : Nat
  blocks : List Block
  addresses : AddrBook
deriving DecidableEq

/-- Embedding of `ledger.New`: an empty chain with an empty address
book. -/
def ledgerNew (chain : Nat) : Ledger :=
  { chain := chain, blocks := [], addresses := [] }

/-- Embedding of `Ledger.Append`, returning the resulting ledger and
the error.  A non-empty chain first checks `SuccessorOf` against the
last block; then `Verify` runs against the live address book, and only
a `nil` error installs the returned snapshot and pushes the block. -/
def ledgerAppend (E : Env) (l : Ledger) (b : Block) : Ledger × Option String :=
  let verified :=
    match blockVerify E b l.addresses with
    | (book, none) => ({ l with addresses := book, blocks := l.blocks ++ [b] },
        (none : Option String))
    | (_, some e) => (l, some e)
  match l.blocks.getLast? with
  | none => verified
  | some prev =>
      match successorOf E b prev with
      | some e => (l, some e)
      | none => verified

/-- Scalar well-formedness of a block: in Go every header field has
type `uint64`, so any block value a caller can construct satisfies
these bounds. -/
def BlockScalarWF (b : Block) : Prop :=
  b.chain < U64 ∧ b.index < U64 ∧ b.complexity < U64 ∧
    b.timestamp < U64 ∧ b.variance < U64

instance (b : Block) : Decidable (BlockScalarWF b) := by
  unfold BlockScalarWF; infer_instance

/-- Genesis block as assembled by `block.Genesis` and mined by
`block.Find`: index 0, the given complexity, a zero previous hash, and
a single coinbase built by `transaction.NewCoinbase` from a creator key
with coordinates `X`, `Y` (recipient is the key's address, data its
public bytes, amount the block reward, proof the creator's ECDSA
signature — a byte string chosen by the signing RNG).  `Find` only
replaces the variance, abstracted by the parameter `v`; `t` and `ts`
stand for the two wall-clock timestamps. -/
def genesisBlock (E : Env) (chain c t ts v X Y : Nat) (proof : List Nat) : Block :=
  { chain := chain, index := 0, complexity := c, timestamp := t, variance := v,
    previousHash := List.replicate 32 0,
    data := [{ chain := chain, ty := TypeCoinbase,
               sender := List.replicate 32 0,
               recipient := dsha E (minBE X ++ minBE Y),
               amount := blockReward c [], fee := 0, timestamp := ts,
               proof := proof, data := minBE X ++ minBE Y }] }

/-- Ledger states reachable from a fresh ledger by any sequence of
`Append` and `Init` calls.  `Append` covers failing calls as well
(which leave the state unchanged); `Init` resets the block list — but
not the address book, exactly as in the source — and appends a mined
genesis, with the mining nondeterminism abstracted into the
parameters. -/
inductive Reachable (E : Env) : Ledger → Prop where
  | newLedger (chain : Nat) : Reachable E (ledgerNew chain)
  | appendStep (l : Ledger) (b : Block) (hwf : BlockScalarWF b)
      (h : Reachable E l) : Reachable E (ledgerAppend E l b).1
  | initStep (l : Ledger) (c t ts v X Y : Nat) (proof : List Nat)
      (h : Reachable E l) :
      Reachable E
        (ledgerAppend E { l with blocks := [] }
          (genesisBlock E l.chain c t ts v X Y proof)).1

/-! ## Concrete instances used by witnesses and counterexamples -/

/-- Concrete environment: a constant all-zero digest and an
always-accepting ECDSA verifier.  Every theorem below quantifies over
all environments; this one only instantiates them at evaluable
points. -/
def envZ : Env :=
  { sha := fun _ => List.replicate 32 0, ecdsaVerify := fun _ _ _ _ _ => true }

/-- Address used by the concrete sender entry. -/
def aliceAddr : List Nat := List.replicate 32 1

/-- Address used by the concrete recipient entry. -/
def bobAddr : List Nat := List.replicate 32 2

/-- Arbitrary public key for the concrete entries. -/
def someAcct : Pub := { X := 3, Y := 4 }

/-- Concrete two-entry address book: the sender holds 1000 units, the
recipient 5. -/
def book1 : AddrBook :=
  [{ address := aliceAddr, account := someAcct, funds := 1000 },
   { address := bobAddr, account := someAcct, funds := 5 }]

/-- Concrete transfer of 10 units with fee 3 from the 1000-unit entry
to the 5-unit entry. -/
def transferTx : TX :=
  { chain := 0, ty := TypeTransfer, sender := aliceAddr, recipient := bobAddr,
    amount := 10, fee := 3, timestamp := 0, proof := List.replicate 64 0,
    data := [] }

/-- Concrete coinbase whose recipient field names an address that is
absent from the book and differs from the address derived from its
`data` bytes. -/
def coinbaseOrphan : TX :=
  { chain := 0, ty := TypeCoinbase, sender := List.replicate 32 0,
    recipient := List.replicate 32 1, amount := 7, fee := 0, timestamp := 0,
    proof := List.replicate 64 0, data := List.replicate 64 0 }

/-- Concrete coinbase crediting the existing 5-unit entry of `book1`. -/
def coinbaseToBob : TX :=
  { chain := 0, ty := TypeCoinbase, sender := List.replicate 32 0,
    recipient := bobAddr, amount := 7, fee := 0, timestamp := 0,
    proof := List.replicate 64 0, data := List.replicate 64 0 }

/-- Concrete coinbase accepted by `envZ` verification on an empty book:
its recipient equals the address `envZ` derives from its 64 zero data
bytes, and its amount matches the zero reward of complexity 0. -/
def coinbaseZ : TX :=
  { chain := 5, ty := TypeCoinbase, sender := List.replicate 32 0,
    recipient := List.replicate 32 0, amount := 0, fee := 0, timestamp := 0,
    proof := List.replicate 64 0, data := List.replicate 64 0 }

/-- Concrete block that `ledgerAppend` accepts on a fresh ledger with
chain id 0 even though its index is 42 and its chain id is 5: Append
performs no successor check when the chain is empty. -/
def blockRogue : Block :=
  { chain := 5, index := 42, complexity := 0, timestamp := 0, variance := 0,
    previousHash := List.replicate 32 0, data := [coinbaseZ] }

/-- Concrete first block with index 0 and chain id 0, append-accepted
on a fresh ledger with chain id 0. -/
def blockGood : Block :=
  { chain := 0, index := 0, complexity := 0, timestamp := 0, variance := 0,
    previousHash := List.replicate 32 0,
    data := [{ coinbaseZ with chain := 0 }] }

/-- Concrete well-formed block exercising the serialization round
trip: every field differs from the zero receiver and it carries one
transfer with a non-empty payload. -/
def blockSample : Block :=
  { chain := 1, index := 2, complexity := 3, timestamp := 4, variance := 5,
    previousHash := List.replicate 32 9,
    data := [{ chain := 6, ty := TypeTransfer, sender := List.replicate 32 1,
               recipient := List.replicate 32 2, amount := 7, fee := 8,
               timestamp := 9, proof := List.replicate 64 3,
               data := [10, 11] }] }

/-- Well-formedness of a transaction as the Go type system and slice
layout guarantee it: u64 scalar fields, 32-byte sender and recipient,
64-byte proof, and a data slice whose length fits a non-negative Go
`int`. -/
def TXWF (t : TX) : Prop :=
  t.chain < U64 ∧ t.ty < U64 ∧ t.amount < U64 ∧ t.fee < U64 ∧
    t.timestamp < U64 ∧ t.sender.length = 32 ∧ t.recipient.length = 32 ∧
    t.proof.length = 64 ∧ t.data.length < 2 ^ 63

instance (t : TX) : Decidable (TXWF t) := by
  unfold TXWF; infer_instance

/-- Well-formedness of a block: scalar bounds, a 32-byte previous
hash, a transaction count that fits u64, and well-formed
transactions. -/
def BlockWF (b : Block) : Prop :=
  BlockScalarWF b ∧ b.previousHash.length = 32 ∧ b.data.length < U64 ∧
    ∀ t ∈ b.data, TXWF t

instance (b : Block) : Decidable (BlockWF b) := by
  unfold BlockWF; infer_instance

/-- Relative index/chain invariant of a block sequence: every block's
index is the first block's index advanced by its position in u64
arithmetic, every block shares the first block's chain id, and the
first block's index is a u64 value. -/
def blocksInv (bs : List Block) : Prop :=
  ∀ h0 : 0 < bs.length,
    (bs.get ⟨0, h0⟩).index < U64 ∧
      ∀ i, ∀ hi : i < bs.length,
        (bs.get ⟨i, hi⟩).index = ((bs.get ⟨0, h0⟩).index + i) % U64 ∧
        (bs.get ⟨i, hi⟩).chain = (bs.get ⟨0, h0⟩).chain

/-- Ledger obtained by appending the accepted first block `blockGood`
to a fresh ledger; used to witness the reachability invariant. -/
def goodLedger : Ledger := (ledgerAppend envZ (ledgerNew 0) blockGood).1

/-! ## Theorems -/

/-- Unfolding lemma for the fee schedule, stated with variables so that
its `rfl` proof never makes the kernel evaluate the float model at a
large literal. -/
theorem calculateFee_eq (size c : Nat) : CalculateFee size c =
    (BaseFee + FeeSizeScalar * size + FeeComplexityScalar * feeQuality c) % U64 := rfl

/-- Bit-length bounds: within its fuel, `bitLenAux` brackets a positive
number between consecutive powers of two. -/
theorem bitLenAux_bounds : ∀ f n, n < 2 ^ f → 1 ≤ n →
    2 ^ (bitLenAux f n - 1) ≤ n ∧ n < 2 ^ bitLenAux f n := by
  intro f
  induction f with
  | zero => intro n h h1; omega
  | succ f ih =>
      intro n h h1
      unfold bitLenAux
      rw [if_neg (by omega)]
      by_cases h2 : n = 1
      · subst h2
        have : bitLenAux f 0 = 0 := by cases f <;> simp [bitLenAux]
        rw [this]
        omega
      · have hge : 2 ≤ n := by omega
        have hlt : n / 2 < 2 ^ f := by omega
        have h1f : 1 ≤ n / 2 := by omega
        obtain ⟨hl, hr⟩ := ih (n / 2) hlt h1f
        have hL1 : 1 ≤ bitLenAux f (n / 2) := by
          by_contra hc
          have : bitLenAux f (n / 2) = 0 := by omega
          rw [this] at hr
          omega
        constructor
        · rw [Nat.add_sub_cancel]
          have hexp : 2 ^ bitLenAux f (n / 2) = 2 * 2 ^ (bitLenAux f (n / 2) - 1) := by
            conv_lhs => rw [show bitLenAux f (n / 2) = (bitLenAux f (n / 2) - 1) + 1 by omega]
            rw [pow_succ]
            ring
          rw [hexp]
          omega
        · rw [pow_succ]
          omega

/-- Core inequality of the no-spurious-round-up argument: when the
scale `B = 2 ^ e` dominates `128 (k + 1)`, the cleared-denominator
midpoint test fails for every argument below the next square. -/
theorem quality_no_roundup (k B : Nat) (hB : 128 * (k + 1) ≤ B) :
    (64 * (k + 1) ^ 2 - 1) * B ^ 2 < 64 * ((k + 1) * B - 1) ^ 2 := by
  have h1 : 1 ≤ 64 * (k + 1) ^ 2 := by nlinarith
  have h2 : 1 ≤ (k + 1) * B := by nlinarith
  zify [h1, h2] at hB ⊢
  nlinarith [mul_le_mul_of_nonneg_right hB (show (0:ℤ) ≤ (B : ℤ) by positivity)]

/-- Doubles are exact below 2^53, so the conversion is the identity
there. -/
theorem fround_small (c : Nat) (h : c < 2 ^ 53) : fround c = c := by
  unfold fround
  rw [if_pos h]

/-- Whenever the root stays below 2^23 bits, the correctly rounded
square root never crosses up to the next integer, so the float quality
equals the exact integer square root. -/
theorem feeQualityCore_no_roundup (N k : Nat) (hk : k + 1 ≤ 2 ^ 23)
    (hN : N ≤ 64 * (k + 1) ^ 2 - 1) : feeQualityCore N k = k := by
  have hb := bitLenAux_bounds 64 (k + 1) (by omega) (by omega)
  unfold feeQualityCore
  rw [show bitLen (k + 1) = bitLenAux 64 (k + 1) from rfl] at *
  set L := bitLenAux 64 (k + 1) with hL
  have hL1 : 1 ≤ L := by
    by_contra hc
    have : L = 0 := by omega
    rw [this] at hb
    omega
  have ht23 : L - 1 ≤ 23 := by
    by_contra hc
    have h24 : 24 ≤ L - 1 := by omega
    have : (2 : Nat) ^ 24 ≤ 2 ^ (L - 1) := Nat.pow_le_pow_right (by norm_num) h24
    omega
  have hupper : k + 1 < 2 ^ (L - 1 + 1) := by
    have : L - 1 + 1 = L := by omega
    rw [this]
    exact hb.2
  have key : ∀ e : Nat, 128 * (k + 1) ≤ 2 ^ e →
      ¬ (FeeEpoch * ((k + 1) * 2 ^ e - 1) ^ 2 ≤ N * 2 ^ (2 * e)) := by
    intro e hB
    rw [not_le]
    calc N * 2 ^ (2 * e) ≤ (64 * (k + 1) ^ 2 - 1) * 2 ^ (2 * e) :=
          Nat.mul_le_mul_right _ hN
      _ = (64 * (k + 1) ^ 2 - 1) * (2 ^ e) ^ 2 := by
          rw [mul_comm 2 e, pow_mul]
      _ < 64 * ((k + 1) * 2 ^ e - 1) ^ 2 := quality_no_roundup k (2 ^ e) hB
      _ = FeeEpoch * ((k + 1) * 2 ^ e - 1) ^ 2 := by rw [show FeeEpoch = 64 from rfl]
  dsimp only
  by_cases hpow : k + 1 = 2 ^ (L - 1)
  · rw [if_pos hpow, if_neg (key (54 - (L - 1)) ?_)]
    rw [hpow, show (128 : Nat) = 2 ^ 7 from rfl, ← pow_add]
    exact Nat.pow_le_pow_right (by norm_num) (by omega)
  · rw [if_neg hpow, if_neg (key (53 - (L - 1)) ?_)]
    have ht22 : L - 1 ≤ 22 := by
      by_contra hc
      have h23 : L - 1 = 23 := by omega
      rw [h23] at hb
      have : k + 1 = 2 ^ 23 := by omega
      rw [h23] at hpow
      exact hpow this
    calc 128 * (k + 1) ≤ 128 * (2 ^ (L - 1 + 1) - 1) := by
          have := hupper
          omega
      _ ≤ 2 ^ (53 - (L - 1)) := by
          have h1 : (128 : Nat) * (2 ^ (L - 1 + 1) - 1) ≤ 128 * 2 ^ (L - 1 + 1) :=
            Nat.mul_le_mul_left _ (Nat.sub_le _ _)
          have h2 : (128 : Nat) * 2 ^ (L - 1 + 1) = 2 ^ (7 + (L - 1 + 1)) := by
            rw [show (128 : Nat) = 2 ^ 7 from by norm_num, ← pow_add]
          have h3 : (2 : Nat) ^ (7 + (L - 1 + 1)) ≤ 2 ^ (53 - (L - 1)) :=
            Nat.pow_le_pow_right (by norm_num) (by omega)
          omega

/-- Below 2^52 the double-precision pipeline is exact: the conversion
is the identity and the rounded square root truncates to the exact
integer square root. -/
theorem feeQuality_exact (c : Nat) (h : c < 2 ^ 52) :
    feeQuality c = Nat.sqrt (c / 64) := by
  unfold feeQuality
  rw [fround_small c (by omega), show FeeEpoch = 64 from rfl]
  apply feeQualityCore_no_roundup
  · have : Nat.sqrt (c / 64) < 2 ^ 23 := by
      rw [Nat.sqrt_lt]
      have : c / 64 < 2 ^ 46 := by omega
      omega
    omega
  · have hsq : c / 64 < (Nat.sqrt (c / 64) + 1) * (Nat.sqrt (c / 64) + 1) :=
      Nat.lt_succ_sqrt (c / 64)
    rw [pow_two]
    have hdm := Nat.div_add_mod c 64
    have hmod : c % 64 < 64 := Nat.mod_lt _ (by norm_num)
    omega

/-- At the largest u64 complexity the conversion to a double rounds
2^64 - 1 up to 2^64, whose quality is exactly 2^29. -/
theorem feeQuality_max : feeQuality (2 ^ 64 - 1) = 2 ^ 29 := by
  unfold feeQuality
  rw [show fround (2 ^ 64 - 1) = 2 ^ 64 from by decide]
  have hs : Nat.sqrt (2 ^ 64 / FeeEpoch) = 2 ^ 29 := by
    rw [show (2 : Nat) ^ 64 / FeeEpoch = (2 ^ 29) ^ 2 from by norm_num [FeeEpoch]]
    exact Nat.sqrt_eq' (2 ^ 29)
  rw [hs]
  decide

/-- C8 (counterexample): at complexity 2^64 - 1 the code's
double-precision quality is 2^29 (the conversion rounds the complexity
up to 2^64), while the claimed exact formula gives
`Nat.sqrt (2^58 - 1) = 2^29 - 1`, so the fee differs by 128. -/
theorem calculateFee_float_divergence :
    CalculateFee 0 (2 ^ 64 - 1) = (512 + 32 * 0 + 128 * 2 ^ 29) % 2 ^ 64 ∧
      Nat.sqrt ((2 ^ 64 - 1) / 64) = 2 ^ 29 - 1 ∧
      CalculateFee 0 (2 ^ 64 - 1) ≠
        (512 + 32 * 0 + 128 * Nat.sqrt ((2 ^ 64 - 1) / 64)) % 2 ^ 64 := by
  have hs : Nat.sqrt ((2 ^ 64 - 1) / 64) = 2 ^ 29 - 1 := by
    rw [show ((2 : Nat) ^ 64 - 1) / 64 = 2 ^ 58 - 1 from by norm_num]
    have h1 : Nat.sqrt (2 ^ 58 - 1) < 2 ^ 29 := by
      rw [Nat.sqrt_lt]
      norm_num
    have h2 : 2 ^ 29 - 1 ≤ Nat.sqrt (2 ^ 58 - 1) := by
      rw [Nat.le_sqrt]
      norm_num
    omega
  have hfee : CalculateFee 0 (2 ^ 64 - 1) = (512 + 32 * 0 + 128 * 2 ^ 29) % 2 ^ 64 := by
    rw [calculateFee_eq, feeQuality_max]
    norm_num [BaseFee, FeeSizeScalar, FeeComplexityScalar, U64, Nat.shiftLeft_eq]
  refine ⟨hfee, hs, ?_⟩
  rw [hfee, hs]
  norm_num

/-- C8 (amended): for every size and every complexity below 2^52 —
where the double-precision computation is provably exact — the minimum
transfer fee equals `512 + 32·size + 128·⌊sqrt (complexity / 64)⌋` as
an unsigned 64-bit computation, unfolding the source constants
`2 << 8`, `2 << 4`, `2 << 6` and the epoch 64. -/
theorem calculateFee_closed_form_exact_below (size c : Nat) (h : c < 2 ^ 52) :
    CalculateFee size c = (512 + 32 * size + 128 * Nat.sqrt (c / 64)) % 2 ^ 64 := by
  rw [calculateFee_eq, feeQuality_exact c h]
  norm_num [BaseFee, FeeSizeScalar, FeeComplexityScalar, U64, Nat.shiftLeft_eq]

/-- C8 (witness): the amended closed form applied at size 3 and
complexity 1000. -/
theorem calculateFee_closed_form_exact_below_witness :
    (1000 : Nat) < 2 ^ 52 ∧
      CalculateFee 3 1000 = (512 + 32 * 3 + 128 * Nat.sqrt (1000 / 64)) % 2 ^ 64 :=
  ⟨by decide, calculateFee_closed_form_exact_below 3 1000 (by decide)⟩

/-- C1: evaluation of the transfer branch of `TX.Apply` at a concrete
snapshot in which distinct sender and recipient entries both exist.  The
sender (1000 units) is debited by fee + amount = 13, but the recipient
keeps its original 5 units instead of being credited the 10-unit amount:
the variable shadowing at transaction.go:177 routes the credit back to
the sender's entry, where the subsequent debit insert overwrites it. -/
theorem transfer_shadowing_misses_recipient :
    txApply envZ transferTx book1 =
      some [{ address := aliceAddr, account := someAcct, funds := 987 },
            { address := bobAddr, account := someAcct, funds := 5 }] := by
  decide

/-- C10 (counterexample): a coinbase whose recipient entry is absent
and whose data bytes derive a different address still applies
successfully, but the credit lands on the derived address — the
recipient named by the transaction ends up with no entry at all, so its
funds are not the old funds plus the amount. -/
theorem coinbase_credit_not_at_recipient :
    (txApply envZ coinbaseOrphan []).isSome = true ∧
      (txApply envZ coinbaseOrphan []).bind
        (fun bk => bGet bk coinbaseOrphan.recipient) = none := by
  decide

/-- C10 (amended): coinbase application performs the credit with
wrapping u64 addition and no overflow check.  When the snapshot holds
an entry at the transaction's recipient address, Apply succeeds and
credits that entry (the source touches `tx.Data` only on the other
path).  When the entry is absent, the source first calls
`account.NewPublic(tx.Data)`, which panics for data shorter than 32
bytes (`data[:32]` out of range); on the panic-free domain of at least
32 data bytes, Apply succeeds and credits a fresh entry keyed by the
address derived from the data, not by `tx.Recipient`. -/
theorem coinbase_apply_behavior (E : Env) (t : TX) (book : AddrBook)
    (h : t.ty = TypeCoinbase) :
    (∀ e, bGet book t.recipient = some e →
        txApply E t book =
          some (bPut book { e with funds := (e.funds + t.amount) % U64 })) ∧
      (bGet book t.recipient = none → 32 ≤ t.data.length →
        txApply E t book =
          some (bPut book
            { address := pubAddress E (newPublic t.data),
              account := newPublic t.data,
              funds := (0 + t.amount) % U64 })) := by
  unfold txApply
  rw [if_pos h]
  constructor
  · intro e he
    rw [he]
  · intro hnone _
    rw [hnone]

/-- C10 (witness): the amended theorem applied twice — to the concrete
coinbase crediting the existing 5-unit entry of `book1`, and to the
orphan coinbase (64 data bytes) creating a fresh derived-address entry
in the empty book. -/
theorem coinbase_apply_behavior_witness :
    (coinbaseToBob.ty = TypeCoinbase ∧
      bGet book1 coinbaseToBob.recipient =
        some { address := bobAddr, account := someAcct, funds := 5 } ∧
      txApply envZ coinbaseToBob book1 =
        some (bPut book1 { address := bobAddr, account := someAcct,
                           funds := (5 + coinbaseToBob.amount) % U64 })) ∧
      (bGet ([] : AddrBook) coinbaseOrphan.recipient = none ∧
        32 ≤ coinbaseOrphan.data.length ∧
        txApply envZ coinbaseOrphan [] =
          some (bPut []
            { address := pubAddress envZ (newPublic coinbaseOrphan.data),
              account := newPublic coinbaseOrphan.data,
              funds := (0 + coinbaseOrphan.amount) % U64 })) :=
  ⟨⟨by decide, by decide,
      (coinbase_apply_behavior envZ coinbaseToBob book1 rfl).1
        { address := bobAddr, account := someAcct, funds := 5 } (by decide)⟩,
    ⟨by decide, by decide,
      (coinbase_apply_behavior envZ coinbaseOrphan [] rfl).2
        (by decide) (by decide)⟩⟩

/-- C4 (counterexample): verifying an empty signature does not return
false — the source's `signature[:32]` slice is out of range, a panic
(modelled by `none`). -/
theorem verify_short_signature_panics :
    pubVerifyChecked envZ { X := 0, Y := 0 } (List.replicate 32 0) [] = none := by
  decide

/-- C4 (amended): for signatures of at least 32 bytes, verification
never panics: it parses r and s big-endian and returns the ECDSA
verdict as a boolean. -/
theorem verify_returns_bool_of_long_signature (E : Env) (p : Pub)
    (h sig : List Nat) (hl : 32 ≤ sig.length) :
    pubVerifyChecked E p h sig =
      some (E.ecdsaVerify p.X p.Y h (beNat (sig.take 32)) (beNat (sig.drop 32))) := by
  unfold pubVerifyChecked
  rw [if_neg (by omega)]

/-- C4 (witness): the amended theorem applied to a 64-byte zero
signature under the concrete environment. -/
theorem verify_returns_bool_of_long_signature_witness :
    32 ≤ (List.replicate 64 0 : List Nat).length ∧
      pubVerifyChecked envZ { X := 0, Y := 0 } (List.replicate 32 0)
          (List.replicate 64 0) =
        some (envZ.ecdsaVerify 0 0 (List.replicate 32 0)
          (beNat ((List.replicate 64 0 : List Nat).take 32))
          (beNat ((List.replicate 64 0 : List Nat).drop 32))) :=
  ⟨by decide,
    verify_returns_bool_of_long_signature envZ { X := 0, Y := 0 }
      (List.replicate 32 0) (List.replicate 64 0) (by decide)⟩

/-- Leading zeros of a byte never exceed eight. -/
theorem lz8_le_eight (n : Nat) : lz8 n ≤ 8 := Nat.sub_le _ _

/-- Leading zeros reach eight exactly on the zero byte. -/
theorem lz8_eq_eight_iff (n : Nat) : lz8 n = 8 ↔ n = 0 := by
  unfold lz8 len8
  split_ifs <;> constructor <;> intro hx <;> first | omega | exact hx.elim

/-- Leading zero bits are bounded by the bit width of the string. -/
theorem lzBits_le (l : List Nat) : lzBits l ≤ 8 * l.length := by
  induction l with
  | nil => simp [lzBits]
  | cons h t ih =>
      unfold lzBits
      have := lz8_le_eight h
      split_ifs <;> simp [List.length_cons] <;> omega

/-- Correctness of the byte-consuming compliance loop: away from the
degenerate case of a zero requirement on an empty string, it decides
whether the requirement is at most the leading-zero-bit count. -/
theorem compliantLoop_eq (l : List Nat) :
    ∀ req, req ≠ 0 ∨ l ≠ [] →
      compliantLoop req l = decide (req ≤ lzBits l) := by
  induction l with
  | nil =>
      intro req h
      have hreq : req ≠ 0 := by tauto
      unfold compliantLoop lzBits
      simp
      omega
  | cons b t ih =>
      intro req _
      unfold compliantLoop lzBits
      by_cases hb : b = 0
      · subst hb
        have hlz : lz8 0 = 8 := by decide
        rw [hlz]
        by_cases hr : req ≤ 8
        · rw [if_pos hr]
          have : req ≤ 8 + lzBits t := by omega
          simp [this]
        · rw [if_neg hr, if_neg (by omega)]
          rw [ih (req - 8) (Or.inl (by omega))]
          rw [decide_eq_decide]
          simp
          omega
      · have hlz : lz8 b < 8 := by
          have h1 := lz8_le_eight b
          have h2 := lz8_eq_eight_iff b
          omega
        rw [if_neg hb]
        by_cases hr : req ≤ lz8 b
        · simp [hr]
        · rw [if_neg hr, if_pos hlz]
          simp [hr]

/-- C6: the compliance predicate holds exactly when the leading zero
bits of the 32-byte block hash reach the required quality
`⌊sqrt (complexity / 16)⌋`; consequently it always fails once the
requirement exceeds 256 bits, and on the all-zero hash it holds exactly
up to a 256-bit requirement. -/
theorem compliant_iff_leading_zero_bits (E : Env) (b : Block)
    (hlen : (blockHash E b).length = 32) :
    (blockCompliant E b = true ↔
        Nat.sqrt (b.complexity / 16) ≤ lzBits (blockHash E b)) ∧
      (256 < Nat.sqrt (b.complexity / 16) → blockCompliant E b = false) ∧
      (blockHash E b = List.replicate 32 0 →
        (blockCompliant E b = true ↔ Nat.sqrt (b.complexity / 16) ≤ 256)) := by
  have hne : blockHash E b ≠ [] := by
    intro hcon
    rw [hcon] at hlen
    simp at hlen
  have hq : HashQuality b.complexity = Nat.sqrt (b.complexity / 16) := rfl
  have key : blockCompliant E b =
      decide (Nat.sqrt (b.complexity / 16) ≤ lzBits (blockHash E b)) := by
    unfold blockCompliant
    rw [hq] at *
    exact compliantLoop_eq (blockHash E b) _ (Or.inr hne)
  refine ⟨by rw [key]; simp, ?_, ?_⟩
  · intro hbig
    have hbound := lzBits_le (blockHash E b)
    rw [hlen] at hbound
    rw [key]
    simp
    omega
  · intro hzero
    have : lzBits (blockHash E b) = 256 := by rw [hzero]; decide
    rw [key, this]
    simp

/-- C6 (witness): the characterization applied to the zero block under
the concrete environment, whose hash is the all-zero string. -/
theorem compliant_iff_leading_zero_bits_witness :
    (blockHash envZ blockNew).length = 32 ∧
      ((blockCompliant envZ blockNew = true ↔
          Nat.sqrt (blockNew.complexity / 16) ≤ lzBits (blockHash envZ blockNew)) ∧
        (256 < Nat.sqrt (blockNew.complexity / 16) →
          blockCompliant envZ blockNew = false) ∧
        (blockHash envZ blockNew = List.replicate 32 0 →
          (blockCompliant envZ blockNew = true ↔
            Nat.sqrt (blockNew.complexity / 16) ≤ 256))) :=
  ⟨by decide, compliant_iff_leading_zero_bits envZ blockNew (by decide)⟩

/-- Failure of the transaction loop of `Block.Verify` always hands back
the caller's fallback snapshot, whatever mutations the threaded clone
accumulated. -/
theorem verifyTxs_err (E : Env) (fb : AddrBook) (r c : Nat) :
    ∀ ts (i : Nat) (tree : AddrBook),
      (verifyTxs E fb r c i ts tree).2 ≠ none →
        (verifyTxs E fb r c i ts tree).1 = fb := by
  intro ts
  induction ts with
  | nil =>
      intro i tree h
      simp [verifyTxs] at h
  | cons t rest ih =>
      intro i tree h
      unfold verifyTxs at h ⊢
      split_ifs at h ⊢ <;>
        first
          | rfl
          | (cases happ : txApply E t tree with
             | none => simp [happ]
             | some tree2 =>
                 rw [happ] at h
                 simp only [happ]
                 exact ih _ _ h)

/-- C2: a failing `Append` leaves the ledger — both its block sequence
and its address book — exactly as it was, and a failing `Block.Verify`
returns the original fallback snapshot rather than the mutated
clone. -/
theorem append_error_leaves_ledger_unchanged (E : Env) :
    (∀ l b, (ledgerAppend E l b).2 ≠ none → (ledgerAppend E l b).1 = l) ∧
      (∀ bk b, (blockVerify E b bk).2 ≠ none → (blockVerify E b bk).1 = bk) := by
  have hver : ∀ bk b, (blockVerify E b bk).2 ≠ none →
      (blockVerify E b bk).1 = bk := by
    intro bk b h
    unfold blockVerify at h ⊢
    split_ifs at h ⊢ <;>
      first
        | rfl
        | exact verifyTxs_err E bk _ _ _ _ _ h
  refine ⟨?_, hver⟩
  intro l b h
  unfold ledgerAppend at h ⊢
  cases hgl : l.blocks.getLast? with
  | none =>
      simp only [hgl] at h ⊢
      cases hv : blockVerify E b l.addresses with
      | mk bk e =>
          cases e with
          | none => simp [hv] at h
          | some msg => simp [hv]
  | some prev =>
      simp only [hgl] at h ⊢
      cases hs : successorOf E b prev with
      | some msg => rfl
      | none =>
          cases hv : blockVerify E b l.addresses with
          | mk bk e =>
              cases e with
              | none => simp [hs, hv] at h
              | some msg => rfl

/-- C2 (witness): a concrete failing append — the empty block fails
verification with the EmptyBlock error on a fresh ledger — leaves both
the ledger and the fallback book unchanged. -/
theorem append_error_leaves_ledger_unchanged_witness :
    (ledgerAppend envZ (ledgerNew 0) blockNew).2 ≠ none ∧
      (ledgerAppend envZ (ledgerNew 0) blockNew).1 = ledgerNew 0 ∧
      (blockVerify envZ blockNew []).2 ≠ none ∧
      (blockVerify envZ blockNew []).1 = [] :=
  ⟨by decide,
    (append_error_leaves_ledger_unchanged envZ).1 (ledgerNew 0) blockNew
      (by decide),
    by decide,
    (append_error_leaves_ledger_unchanged envZ).2 [] blockNew (by decide)⟩

/-- C5: evaluation of the signature serialization at the failing input
r = 1, s = 1 (an ECDSA output whose components have leading zero
bytes): the source emits the two minimal big-endian bytes `[1, 1]`, not
a 64-byte string of two 32-byte left-padded halves. -/
theorem sign_encoding_unpadded :
    signEncode 1 1 = [1, 1] ∧ (signEncode 1 1).length = 2 := by
  decide

/-- Encoding a u64 always yields its full width. -/
theorem encodeLE_length (k : Nat) : ∀ n, (encodeLE k n).length = k := by
  induction k with
  | zero => intro n; rfl
  | succ k ih => intro n; simp [encodeLE, ih]

/-- Decoding inverts encoding up to the field width. -/
theorem decodeLE_encodeLE (k : Nat) :
    ∀ n, decodeLE (encodeLE k n) = n % 256 ^ k := by
  induction k with
  | zero => intro n; simp [encodeLE, decodeLE, Nat.mod_one]
  | succ k ih =>
      intro n
      rw [encodeLE, decodeLE, ih (n / 256), pow_succ']
      exact (Nat.mod_mul).symm

/-- Reading a u64 from a stream that begins with an encoded u64
consumes exactly its eight bytes. -/
theorem readU64_exact (n : Nat) (rest : List Nat) :
    readU64 (u64LE n ++ rest) = (some (n % U64), rest) := by
  have hlen : (u64LE n).length = 8 := encodeLE_length 8 n
  unfold readU64
  rw [if_pos (by simp [hlen])]
  rw [List.take_left' hlen, List.drop_left' hlen]
  rw [show decodeLE (u64LE n) = n % 256 ^ 8 from decodeLE_encodeLE 8 n]
  norm_num [U64]

/-- A read of fewer than eight bytes fails and exhausts the stream, as
`io.ReadFull` does. -/
theorem readU64_short (s : List Nat) (h : s.length < 8) :
    readU64 s = (none, []) := by
  unfold readU64
  rw [if_neg (by omega)]

/-- Reading into a buffer from a stream holding at least a buffer-sized
prefix replaces the buffer and consumes the prefix. -/
theorem readInto_exact (dst pre rest : List Nat) (h : pre.length = dst.length) :
    readInto dst (pre ++ rest) = (pre, rest) := by
  unfold readInto
  have hk : min dst.length (pre ++ rest).length = dst.length := by
    simp [List.length_append]
    omega
  simp only [hk]
  rw [List.take_left' h, List.drop_left' h, List.drop_length]
  simp

/-- Reading into a buffer from an exhausted stream leaves the buffer
unchanged. -/
theorem readInto_nil (dst : List Nat) : readInto dst [] = (dst, []) := by
  unfold readInto
  simp

/-- Width of a serialized transaction: five u64 fields, the fixed
sender, recipient and proof, and the payload. -/
theorem txBytes_length (t : TX) (hs : t.sender.length = 32)
    (hr : t.recipient.length = 32) (hp : t.proof.length = 64) :
    (txBytes t).length = 168 + t.data.length := by
  simp [txBytes, u64LE, encodeLE_length, hs, hr, hp]
  omega

/-- Round trip of the transaction codec through a fresh `New()`
receiver, for well-formed transactions. -/
theorem txSetBytes_roundtrip (t : TX) (h : TXWF t) :
    txSetBytes txNew (txBytes t) = t := by
  obtain ⟨h1, h2, h3, h4, h5, hs, hr, hp, _⟩ := h
  unfold txSetBytes txBytes
  simp only [List.append_assoc, readU64_exact]
  rw [readInto_exact _ t.sender _ (by simp [hs, txNew]),
      readInto_exact _ t.recipient _ (by simp [hr, txNew]),
      readInto_exact _ t.proof _ (by simp [hp, txNew])]
  simp [txNew, Nat.mod_eq_of_lt, h1, h2, h3, h4, h5]

/-- Round trip of the size-prefixed transaction list inside a block
body. -/
theorem readTxs_exact : ∀ (ts : List TX) (p : Nat) (rest : List Nat),
    (∀ t ∈ ts, TXWF t) →
    readTxs ts.length p
        ((ts.map fun t => u64LE (txBytes t).length ++ txBytes t).flatten ++ rest) =
      (ts, rest) := by
  intro ts
  induction ts with
  | nil => intro p rest _; simp [readTxs]
  | cons t ts ih =>
      intro p rest hwf
      have hwt : TXWF t := hwf t (by simp)
      obtain ⟨-, -, -, -, -, hs, hr, hp, hd⟩ := hwt
      have hL : (txBytes t).length < U64 := by
        rw [txBytes_length t hs hr hp]
        have : (168 : Nat) + 2 ^ 63 < 2 ^ 64 := by norm_num
        unfold U64
        omega
      show readTxs (ts.length + 1) p _ = _
      unfold readTxs
      simp only [List.map_cons, List.flatten_cons, List.append_assoc, readU64_exact]
      rw [Nat.mod_eq_of_lt hL]
      simp only [Option.getD_some]
      have hmin : min (txBytes t).length
          (txBytes t ++
            ((ts.map fun t => u64LE (txBytes t).length ++ txBytes t).flatten ++
              rest)).length = (txBytes t).length := by
        simp [List.length_append]
      rw [hmin, List.take_left, List.drop_left]
      simp only [Nat.sub_self, List.replicate_zero, List.append_nil]
      rw [txSetBytes_roundtrip t
        ⟨hwf t (by simp) |>.1, hwf t (by simp) |>.2.1, hwf t (by simp) |>.2.2.1,
         hwf t (by simp) |>.2.2.2.1, hwf t (by simp) |>.2.2.2.2.1, hs, hr, hp, hd⟩]
      rw [ih (txBytes t).length rest (fun x hx => hwf x (by simp [hx]))]

/-- Round trip of the block codec through a fresh `New()` receiver via
the streaming reader, for well-formed blocks; the whole stream is
consumed. -/
theorem blockSetBytesFrom_roundtrip (b : Block) (h : BlockWF b) :
    blockSetBytesFrom blockNew (blockBytes b) = (b, []) := by
  obtain ⟨⟨h1, h2, h3, h4, h5⟩, hph, hcnt, htx⟩ := h
  unfold blockSetBytesFrom blockBytes
  simp only [List.append_assoc, readU64_exact]
  rw [readInto_exact _ b.previousHash _ (by simp [hph, blockNew])]
  simp only [Option.getD_some]
  rw [Nat.mod_eq_of_lt hcnt]
  have hrt := readTxs_exact b.data 0 [] htx
  rw [List.append_nil] at hrt
  rw [hrt]
  simp [blockNew, Nat.mod_eq_of_lt, h1, h2, h3, h4, h5]

/-- C3: deserializing a serialized well-formed block through the
streaming reader `SetBytesFrom` on a fresh receiver returns the block
(consuming the whole stream), but `SetBytes` does not: it discards the
parsed block and returns the receiver, on which only the aliased
`PreviousHash` buffer was overwritten — so the round trip through
`SetBytes` fails on a concrete well-formed block. -/
theorem block_roundtrip_reader_ok_setBytes_broken :
    (∀ b : Block, BlockWF b → blockSetBytesFrom blockNew (blockBytes b) = (b, [])) ∧
      blockSetBytes blockNew (blockBytes blockSample) =
        { blockNew with previousHash := blockSample.previousHash } ∧
      blockSetBytes blockNew (blockBytes blockSample) ≠ blockSample :=
  ⟨fun b h => blockSetBytesFrom_roundtrip b h, by decide, by decide⟩

/-- C3 (witness): the streaming round trip applied to the concrete
well-formed sample block. -/
theorem block_roundtrip_reader_ok_setBytes_broken_witness :
    BlockWF blockSample ∧
      blockSetBytesFrom blockNew (blockBytes blockSample) = (blockSample, []) :=
  ⟨by decide,
    block_roundtrip_reader_ok_setBytes_broken.1 blockSample (by decide)⟩

/-- C9 (counterexample): fully and partially truncated inputs do not
surface any error — the decoders have no error result at all — and
silently return the receiver's default values: the one stray byte of
`[7]` is swallowed without a trace. -/
theorem truncated_decode_silent :
    txSetBytes txNew [] = txNew ∧ txSetBytes txNew [7] = txNew ∧
      (blockSetBytesFrom blockNew []).1 = blockNew ∧
      (blockSetBytesFrom blockNew [7]).1 = blockNew := by
  decide

/-- C9 (amended): on any input too short to hold even the first header
field, `TX.SetBytes` and `Block.SetBytesFrom` silently return the
receiver unchanged instead of reporting a malformed-input error. -/
theorem short_input_decodes_silently (s : List Nat) (h : s.length < 8) :
    txSetBytes txNew s = txNew ∧ (blockSetBytesFrom blockNew s).1 = blockNew := by
  have h1 := readU64_short s h
  have h0 : readU64 [] = (none, []) := readU64_short [] (by simp)
  constructor
  · unfold txSetBytes
    simp only [h1, h0, readInto_nil, Option.getD_none]
    rfl
  · unfold blockSetBytesFrom
    simp only [h1, h0, readInto_nil, Option.getD_none]
    simp only [readTxs]
    rfl

/-- C9 (witness): the amended theorem applied to the one-byte input. -/
theorem short_input_decodes_silently_witness :
    ([7] : List Nat).length < 8 ∧
      (txSetBytes txNew [7] = txNew ∧
        (blockSetBytesFrom blockNew [7]).1 = blockNew) :=
  ⟨by decide, short_input_decodes_silently [7] (by decide)⟩

/-- A successor check that passes pins the chain id and the incremented
u64 index. -/
theorem successorOf_none (E : Env) (b prev : Block)
    (h : successorOf E b prev = none) :
    b.chain = prev.chain ∧ b.index = (prev.index + 1) % U64 := by
  unfold successorOf at h
  split_ifs at h <;> first | exact ⟨by omega, by omega⟩ | simp at h

/-- Outcome analysis of `Ledger.Append`: either the ledger is returned
unchanged, or the block is pushed, the chain id is preserved, and —
when the chain was non-empty — the successor check against the last
block passed. -/
theorem ledgerAppend_cases (E : Env) (l : Ledger) (b : Block) :
    (ledgerAppend E l b).1 = l ∨
      ((ledgerAppend E l b).1.blocks = l.blocks ++ [b] ∧
        (ledgerAppend E l b).1.chain = l.chain ∧
        (l.blocks = [] ∨
          ∃ prev, l.blocks.getLast? = some prev ∧ successorOf E b prev = none)) := by
  cases hgl : l.blocks.getLast? with
  | none =>
      cases hv : blockVerify E b l.addresses with
      | mk bk e =>
          cases e with
          | none =>
              right
              refine ⟨?_, ?_, Or.inl (List.getLast?_eq_none_iff.mp hgl)⟩ <;>
                simp [ledgerAppend, hgl, hv]
          | some msg => left; simp [ledgerAppend, hgl, hv]
  | some prev =>
      cases hs : successorOf E b prev with
      | some msg => left; simp [ledgerAppend, hgl, hs]
      | none =>
          cases hv : blockVerify E b l.addresses with
          | mk bk e =>
              cases e with
              | none =>
                  right
                  refine ⟨?_, ?_, Or.inr ⟨prev, rfl, hs⟩⟩ <;>
                    simp [ledgerAppend, hgl, hs, hv]
              | some msg => left; simp [ledgerAppend, hgl, hs, hv]

/-- The empty sequence satisfies the invariant vacuously. -/
theorem blocksInv_nil : blocksInv [] := by
  intro h0
  simp at h0

/-- Pushing a u64-indexed block that chains off the last element
preserves the invariant. -/
theorem blocksInv_snoc (bs : List Block) (b : Block) (hb : b.index < U64)
    (hinv : blocksInv bs)
    (hsucc : ∀ prev, bs.getLast? = some prev →
      b.chain = prev.chain ∧ b.index = (prev.index + 1) % U64) :
    blocksInv (bs ++ [b]) := by
  cases hbs : bs with
  | nil =>
      intro h0
      constructor
      · simpa using hb
      · intro i hi
        simp at hi
        subst hi
        simp [Nat.mod_eq_of_lt hb]
  | cons hd tl =>
      rw [← hbs]
      have hne : bs ≠ [] := by rw [hbs]; simp
      have hlen : 0 < bs.length := List.length_pos.mpr hne
      intro h0
      have hget0 : (bs ++ [b]).get ⟨0, h0⟩ = bs.get ⟨0, hlen⟩ :=
        List.get_append 0 hlen
      obtain ⟨hb0, hrel⟩ := hinv hlen
      have hlast : bs.getLast? = some (bs.getLast hne) := List.getLast?_eq_getLast bs hne
      obtain ⟨hchain, hindex⟩ := hsucc (bs.getLast hne) hlast
      have hlastget : bs.getLast hne = bs.get ⟨bs.length - 1, by omega⟩ :=
        List.getLast_eq_get bs hne
      obtain ⟨hlrel, hlch⟩ := hrel (bs.length - 1) (by omega)
      refine ⟨by rw [hget0]; exact hb0, ?_⟩
      intro i hi
      rw [List.length_append, List.length_singleton] at hi
      by_cases hilt : i < bs.length
      · have hgeti : (bs ++ [b]).get ⟨i, by simp; omega⟩ = bs.get ⟨i, hilt⟩ :=
          List.get_append i hilt
        rw [hgeti, hget0]
        exact hrel i hilt
      · have hieq : i = bs.length := by omega
        subst hieq
        have hgetb : (bs ++ [b]).get ⟨bs.length, by simp⟩ = b := by
          rw [List.get_append_right] <;> simp
        rw [hgetb, hget0]
        constructor
        · rw [hindex, hlastget] at *
          rw [hlrel]
          rw [Nat.mod_add_mod]
          congr 1
          omega
        · rw [hchain, hlastget, hlch]

/-- Every reachable ledger state satisfies the relative index/chain
invariant of its block sequence. -/
theorem reachable_blocksInv (E : Env) (l : Ledger) (h : Reachable E l) :
    blocksInv l.blocks := by
  induction h with
  | newLedger c => exact blocksInv_nil
  | appendStep l b hwf hr ih =>
      rcases ledgerAppend_cases E l b with heq | ⟨hbl, hch, hsucc⟩
      · rw [heq]; exact ih
      · rw [hbl]
        refine blocksInv_snoc l.blocks b hwf.2.1 ih ?_
        intro prev hprev
        rcases hsucc with hnil | ⟨prev2, hprev2, hok⟩
        · rw [hnil] at hprev; simp at hprev
        · rw [hprev2] at hprev
          injection hprev with hpe
          subst hpe
          exact successorOf_none E b _ hok
  | initStep l c t ts v X Y proof hr ih =>
      rcases ledgerAppend_cases E { l with blocks := [] }
          (genesisBlock E l.chain c t ts v X Y proof) with heq | ⟨hbl, hch, hsucc⟩
      · rw [heq]; exact blocksInv_nil
      · rw [hbl]
        refine blocksInv_snoc [] _ ?_ blocksInv_nil ?_
        · show (0 : Nat) < U64
          norm_num [U64]
        · intro prev hprev
          simp at hprev

/-- C7 (amended): every reachable state satisfies the relative
invariant — block `i` carries index `blocks[0].index + i` (mod 2^64) and
the first block's chain id — and the absolute form of the claim holds
exactly when the first block has index 0 and the ledger's chain id,
which `Append` never checks for the first block but `Init`'s genesis
guarantees. -/
theorem reachable_block_index_chain_invariant (E : Env) (l : Ledger)
    (h : Reachable E l) (i : Nat) (hi : i < l.blocks.length)
    (h0 : 0 < l.blocks.length) :
    ((l.blocks.get ⟨i, hi⟩).index =
        ((l.blocks.get ⟨0, h0⟩).index + i) % U64 ∧
      (l.blocks.get ⟨i, hi⟩).chain = (l.blocks.get ⟨0, h0⟩).chain) ∧
    ((l.blocks.get ⟨0, h0⟩).index = 0 →
      (l.blocks.get ⟨0, h0⟩).chain = l.chain → i < U64 →
        (l.blocks.get ⟨i, hi⟩).index = i ∧
          (l.blocks.get ⟨i, hi⟩).chain = l.chain) := by
  obtain ⟨hb0, hrel⟩ := reachable_blocksInv E l h h0
  have main := hrel i hi
  refine ⟨main, fun hz hc hiu => ⟨?_, ?_⟩⟩
  · rw [main.1, hz, Nat.zero_add, Nat.mod_eq_of_lt hiu]
  · rw [main.2, hc]

/-- C7 (witness): the invariant applied at position 0 of the concrete
reachable one-block ledger `goodLedger`. -/
theorem reachable_block_index_chain_invariant_witness :
    0 < goodLedger.blocks.length ∧
      (((goodLedger.blocks.get ⟨0, by decide⟩).index =
          ((goodLedger.blocks.get ⟨0, by decide⟩).index + 0) % U64 ∧
        (goodLedger.blocks.get ⟨0, by decide⟩).chain =
          (goodLedger.blocks.get ⟨0, by decide⟩).chain) ∧
      ((goodLedger.blocks.get ⟨0, by decide⟩).index = 0 →
        (goodLedger.blocks.get ⟨0, by decide⟩).chain = goodLedger.chain →
          0 < U64 →
            (goodLedger.blocks.get ⟨0, by decide⟩).index = 0 ∧
              (goodLedger.blocks.get ⟨0, by decide⟩).chain = goodLedger.chain)) :=
  ⟨by decide,
    reachable_block_index_chain_invariant envZ goodLedger
      (Reachable.appendStep (ledgerNew 0) blockGood (by decide)
        (Reachable.newLedger 0))
      0 (by decide) (by decide)⟩

/-- C7 (counterexample): a block with index 42 and chain id 5 is
accepted by `Append` on a fresh ledger with chain id 0 — the first
block's index and chain are never checked — so a reachable state exists
whose first block violates both `blocks[i].index == i` and
`blocks[i].chain == ledger.chain`. -/
theorem first_block_index_unchecked :
    Reachable envZ (ledgerAppend envZ (ledgerNew 0) blockRogue).1 ∧
      (ledgerAppend envZ (ledgerNew 0) blockRogue).2 = none ∧
      (ledgerAppend envZ (ledgerNew 0) blockRogue).1.blocks = [blockRogue] ∧
      blockRogue.index = 42 ∧ blockRogue.chain = 5 ∧
      (ledgerAppend envZ (ledgerNew 0) blockRogue).1.chain = 0 :=
  ⟨Reachable.appendStep (ledgerNew 0) blockRogue (by decide)
      (Reachable.newLedger 0),
    by decide, by decide, by decide, by decide, by decide⟩

end TxLedger
